import Mathlib

/-!
Android unit-test step: variant discovery and filtering, artifact discovery and
export. A shallow embedding of `main.go`.

Modelling conventions

* A Go `string` is a list of Unicode code points (`GoString`); the source only
  ever cuts strings at the ASCII separators `"\n"`, `" "` and `":"`.
* A Go `map[string][]string` (`gradle.Variants`, the conflict table) is an
  association list read by first match; a well-formed map has pairwise
  distinct keys (`Variants.WF`).  Go leaves the iteration order of a map
  unspecified: here it is the order of the list, and the theorems hold for
  every list, hence for every order.
* Calls that reach outside the program (the file system, the clock, the
  search of the gradle project) are parameters of the definitions.
* Logging is omitted.
-/

namespace AndroidUnitTest

/-- A Go string, as its sequence of code points. -/
abbrev GoString := List Char

/-- A `map[string][]string`, as an association list read by first match. -/
abbrev Variants := List (GoString × List GoString)

/-! ## Go standard library -/

/-- The predicate `unicode.IsSpace`: the white space code points. -/
def isSpace (c : Char) : Bool :=
  c.toNat = 9 || c.toNat = 10 || c.toNat = 11 || c.toNat = 12 || c.toNat = 13 ||
  c.toNat = 32 || c.toNat = 0x85 || c.toNat = 0xA0 || c.toNat = 0x1680 ||
  (0x2000 ≤ c.toNat && c.toNat ≤ 0x200A) || c.toNat = 0x2028 || c.toNat = 0x2029 ||
  c.toNat = 0x202F || c.toNat = 0x205F || c.toNat = 0x3000

/-- The function `strings.TrimSpace`: drop leading and trailing white space. -/
def trimSpace (s : GoString) : GoString :=
  ((s.dropWhile isSpace).reverse.dropWhile isSpace).reverse

/-- The function `strings.Split(s, sep)` for a separator of one character,
which is what every call site of the source passes. The result is never empty. -/
def split (sep : Char) : GoString → List GoString
  | [] => [[]]
  | c :: cs =>
    if c = sep then [] :: split sep cs
    else match split sep cs with
      | [] => [[c]]
      | w :: ws => (c :: w) :: ws

/-- The function `strings.Join(parts, sep)`. -/
def join (sep : GoString) : List GoString → GoString
  | [] => []
  | [x] => x
  | x :: y :: rest => x ++ sep ++ join sep (y :: rest)

/-- The function `strings.HasPrefix(s, pre)`. -/
def hasPrefix (s pre : GoString) : Bool := pre.isPrefixOf s

/-- The function `strings.HasSuffix(s, suf)`. -/
def hasSuffix (s suf : GoString) : Bool := suf.isSuffixOf s

/-- The function `strings.TrimPrefix(s, pre)`. -/
def trimPrefix (s pre : GoString) : GoString :=
  if hasPrefix s pre then s.drop pre.length else s

/-- The function `strings.TrimSuffix(s, suf)`. -/
def trimSuffix (s suf : GoString) : GoString :=
  if hasSuffix s suf then s.take (s.length - suf.length) else s

/-- The function `strings.ToLower`, which maps every code point through
`unicode.ToLower`; that table is the parameter `lower`. -/
def toLower (lower : Char → Char) (s : GoString) : GoString := s.map lower

/-! ## Maps -/

/-- The two-valued map read `v, ok := m[k]`. -/
def Variants.lookup : Variants → GoString → Option (List GoString)
  | [], _ => none
  | (k', v) :: rest, k => if k' = k then some v else Variants.lookup rest k

/-- The map read `m[k]`, which is `nil` for an absent key. -/
def Variants.index (m : Variants) (k : GoString) : List GoString :=
  (m.lookup k).getD []

/-- The map write `m[k] = v`. -/
def Variants.set : Variants → GoString → List GoString → Variants
  | [], k, v => [(k, v)]
  | (k', v') :: rest, k, v =>
    if k' = k then (k, v) :: rest else (k', v') :: Variants.set rest k v

/-- The keys of a map are pairwise distinct. -/
def Variants.WF (m : Variants) : Prop := (m.map Prod.fst).Nodup

instance (m : Variants) : Decidable m.WF := by
  unfold Variants.WF; infer_instance

/-! ## parseAllVariants -/

/-- Modelled from the spec: `cleanStringSlice` is called by `parseAllVariants`
and is not defined in `main.go`. The spec has it "deduplicate each module's
variant list while preserving first-seen order". -/
def cleanStringSlice (xs : List GoString) : List GoString :=
  xs.foldl (fun out s => if s ∈ out then out else out ++ [s]) []

/-- The first token of a trimmed line: `strings.Split(l, " ")[0]`. -/
def firstToken (l : GoString) : GoString := (split ' ' l).headD []

/-- The module name and the leaf task name of a token (lines 183 to 191): with
more than one `":"` segment the module is all but the last segment joined
again and the leaf is the last one; otherwise the module is empty. -/
def splitModule (l : GoString) : GoString × GoString :=
  let sp := split ':' l
  let size := sp.length
  if size > 1 then (join [':'] (sp.take (size - 1)), sp.getLastD []) else ([], l)

/-- The leaf task name that `parseAllVariants` tests on a raw line. -/
def leafOf (line : GoString) : GoString :=
  (splitModule (firstToken (trimSpace line))).2

/-- The body of the loop `lines:` of `parseAllVariants` on one line `l`, with
`name` for `task.name` and `conflicts` for the package-level table. -/
def parseLine (name : GoString) (conflicts : Variants) (tasks : Variants)
    (l : GoString) : Variants :=
  let l := trimSpace l
  if l = [] then tasks
  else
    let ml := splitModule (firstToken l)
    let module := ml.1
    let l := ml.2
    if hasPrefix l name then
      if (conflicts.index name).any (fun conflict => hasPrefix l conflict) then tasks
      else
        let l := trimPrefix l name
        if l = [] then tasks
        else tasks.set module (tasks.index module ++ [l])
    else tasks

/-- The first loop of `parseAllVariants`, over the lines in order. -/
def parseLines (name : GoString) (conflicts : Variants) (lines : List GoString) :
    Variants :=
  lines.foldl (parseLine name conflicts) []

/-- The method `parseAllVariants`: the loop over the lines of the listing, then
`cleanStringSlice` on the list of every module. -/
def parseAllVariants (name : GoString) (conflicts : Variants)
    (gradleOutput : GoString) : Variants :=
  (parseLines name conflicts (split '\n' gradleOutput)).map
    (fun mv => (mv.1, cleanStringSlice mv.2))


/-- The module and the variant that one line of the listing names for the
family `name`, following steps 1 to 6 of the parser in the spec; `none` for a
line that is skipped. -/
def lineEntry (name : GoString) (conflicts : Variants) (line : GoString) :
    Option (GoString × GoString) :=
  let l := trimSpace line
  if l = [] then none
  else
    let ml := splitModule (firstToken l)
    if hasPrefix ml.2 name = true ∧
        (∀ c ∈ conflicts.index name, hasPrefix ml.2 c = false) ∧
        trimPrefix ml.2 name ≠ [] then
      some (ml.1, trimPrefix ml.2 name)
    else none

/-- The variants that the listing names for module `m`, one per line that
names one, in the order of the lines. -/
def listedVariants (name : GoString) (conflicts : Variants) (text m : GoString) :
    List GoString :=
  ((split '\n' text).filterMap (lineEntry name conflicts)).filterMap
    (fun e => if e.1 = m then some e.2 else none)

/-- The position of the first occurrence of `v` in `xs`, and the length of
`xs` when `v` does not occur. -/
def firstIndex (v : GoString) : List GoString → Nat
  | [] => 0
  | x :: xs => if x = v then 0 else firstIndex v xs + 1

/-! ## filterVariants -/

/-- The two errors of `filterVariants`: `module not found: <module>` and
`variant: <variant> not found in any module`. -/
inductive FilterError where
  | moduleNotFound (module : GoString)
  | variantNotFound (variant : GoString)
  deriving DecidableEq, Repr

deriving instance DecidableEq for Except

/-- The test of line 118: `strings.ToLower(v) == strings.ToLower(variant+"UnitTest")`. -/
def matchesVariant (lower : Char → Char) (variant v : GoString) : Bool :=
  toLower lower v = toLower lower (variant ++ "UnitTest".toList)

/-- The inner loop of `filterVariants` (lines 117 to 121) over the variants of
module `m`. -/
def filterModule (lower : Char → Char) (variant : GoString)
    (filteredVariants : Variants) (m : GoString) (variants : List GoString) :
    Variants :=
  variants.foldl
    (fun filtered v =>
      if matchesVariant lower variant v then filtered.set m (filtered.index m ++ [v])
      else filtered)
    filteredVariants

/-- The function `filterVariants`. -/
def filterVariants (lower : Char → Char) (module variant : GoString)
    (variantsMap : Variants) : Except FilterError Variants :=
  let selected : Except FilterError Variants :=
    if module ≠ [] then
      match variantsMap.lookup module with
      | none => Except.error (FilterError.moduleNotFound module)
      | some v => Except.ok [(module, v)]
    else Except.ok variantsMap
  match selected with
  | Except.error e => Except.error e
  | Except.ok variantsMap =>
    if variant = [] then Except.ok variantsMap
    else
      let filteredVariants :=
        variantsMap.foldl
          (fun filtered mv => filterModule lower variant filtered mv.1 mv.2) []
      if filteredVariants.length = 0 then
        Except.error (FilterError.variantNotFound variant)
      else Except.ok filteredVariants

/-! ## getArtifacts -/

/-- The struct `gradle.Artifact`. -/
structure Artifact where
  /-- The field `Path`. -/
  Path : GoString
  /-- The field `Name`. -/
  Name : GoString
  deriving DecidableEq, Repr

/-- An instant `time.Time`, as a number; `time.Time{}` is `zeroTime`. -/
abbrev Time := Nat

/-- The zero value `time.Time{}`, which the searches read as "no threshold". -/
def zeroTime : Time := 0

/-- The two searches of `gradle.Project` that `getArtifacts` calls, each from
the modification-time threshold, the pattern and `includeModuleName` to the Go
result pair `(artifacts, err)`. -/
structure Project where
  /-- The method `FindDirs`. -/
  FindDirs : Time → GoString → Bool → List Artifact × Option GoString
  /-- The method `FindArtifacts`. -/
  FindArtifacts : Time → GoString → Bool → List Artifact × Option GoString

/-- The loop of `getArtifacts` over the remaining thresholds; the second
argument holds the named results `(artifacts, err)` so far. -/
def getArtifactsLoop (gradleProject : Project) (started : Time) (pattern : GoString)
    (includeModuleName isDirectoryMode : Bool) :
    List Time → List Artifact × Option GoString → List Artifact × Option GoString
  | [], results => results
  | t :: rest, _ =>
    let results :=
      if isDirectoryMode then gradleProject.FindDirs t pattern includeModuleName
      else gradleProject.FindArtifacts t pattern includeModuleName
    if results.2 ≠ none then results
    else if results.1.length = 0 then
      if t = started then
        -- warnings, then `continue`
        getArtifactsLoop gradleProject started pattern includeModuleName isDirectoryMode
          rest results
      else
        -- warnings, then the end of the loop body
        getArtifactsLoop gradleProject started pattern includeModuleName isDirectoryMode
          rest results
    else
      -- nothing leaves the loop here: the next threshold is searched
      getArtifactsLoop gradleProject started pattern includeModuleName isDirectoryMode
        rest results

/-- The function `getArtifacts`, with its result pair `(artifacts, err)`. -/
def getArtifacts (gradleProject : Project) (started : Time) (pattern : GoString)
    (includeModuleName isDirectoryMode : Bool) : List Artifact × Option GoString :=
  getArtifactsLoop gradleProject started pattern includeModuleName isDirectoryMode
    [started, zeroTime] ([], none)

/-! ## exportArtifacts -/

/-- The digits of `n` in base ten, most significant first; `fuel` bounds the
number of digits. -/
def natDigits : Nat → Nat → GoString
  | 0, _ => []
  | fuel + 1, n =>
    if n < 10 then [Nat.digitChar n]
    else natDigits fuel (n / 10) ++ [Nat.digitChar (n % 10)]

/-- The function `strconv.Itoa` on a natural number. -/
def itoaNat (n : Nat) : GoString := natDigits (n + 1) n

/-- The function `strconv.Itoa`. -/
def itoa (n : Int) : GoString :=
  if 0 ≤ n then itoaNat n.toNat else '-' :: itoaNat (-n).toNat

/-- The value of a string of decimal digits. -/
def ofDigits (s : GoString) : Nat :=
  s.foldl (fun acc c => acc * 10 + (c.toNat - 48)) 0

/-- The helper `appendInt` of package `time` on a non-negative number: its
decimal digits, padded with zeros on the left to `width` digits. -/
def appendInt (x width : Nat) : GoString :=
  List.replicate (width - (itoaNat x).length) '0' ++ itoaNat x

/-- The fields of a `time.Time` that the layout `20060102150405` prints. -/
structure DateTime where
  /-- The year. -/
  year : Nat
  /-- The month, from 1. -/
  month : Nat
  /-- The day of the month, from 1. -/
  day : Nat
  /-- The hour. -/
  hour : Nat
  /-- The minute. -/
  minute : Nat
  /-- The second. -/
  second : Nat
  deriving DecidableEq, Repr

/-- The ranges of the fields of a date of the years 0 to 9999. -/
def DateTime.valid (t : DateTime) : Prop :=
  t.year < 10000 ∧ 1 ≤ t.month ∧ t.month ≤ 12 ∧ 1 ≤ t.day ∧ t.day ≤ 31 ∧
    t.hour < 24 ∧ t.minute < 60 ∧ t.second < 60

instance (t : DateTime) : Decidable t.valid := by
  unfold DateTime.valid; infer_instance

/-- The call `t.Format("20060102150405")`. -/
def formatTimestamp (t : DateTime) : GoString :=
  appendInt t.year 4 ++ appendInt t.month 2 ++ appendInt t.day 2 ++
    appendInt t.hour 2 ++ appendInt t.minute 2 ++ appendInt t.second 2

/-- What `exportArtifacts` calls outside the program, over a state `W` of the
file system and the clock. -/
structure ExportEnv (W : Type) where
  /-- The function `filepath.Join` on two elements. -/
  join : GoString → GoString → GoString
  /-- The function `pathutil.IsPathExists`, with its result pair `(exists, err)`. -/
  isPathExists : W → GoString → Bool × Option GoString
  /-- The clock `time.Now()`. -/
  now : W → DateTime
  /-- The method `artifact.ExportZIP(deployDir)`: its error and the state after. -/
  exportZIP : W → Artifact → GoString → Option GoString × W

/-- The outcome of `exportArtifacts`: the returned error, the artifacts on which
`ExportZIP` was called, in order and under the name they had at the call, and
the state after. -/
structure ExportResult (W : Type) where
  /-- The returned error. -/
  err : Option GoString
  /-- The calls of `ExportZIP`. -/
  exported : List Artifact
  /-- The state after the call. -/
  world : W

/-- The function `exportArtifacts`. -/
def exportArtifacts {W : Type} (env : ExportEnv W) (deployDir : GoString) :
    List Artifact → W → ExportResult W
  | [], w => ⟨none, [], w⟩
  | artifact :: rest, w =>
    let artifact : Artifact := ⟨artifact.Path, artifact.Name ++ ".zip".toList⟩
    let check := env.isPathExists w (env.join deployDir artifact.Name)
    match check.2 with
    | some err => ⟨some ("failed to check path, error: ".toList ++ err), [], w⟩
    | none =>
      let artifact : Artifact :=
        if check.1 then
          let timestamp := formatTimestamp (env.now w)
          ⟨artifact.Path,
            trimSuffix artifact.Name ".zip".toList ++ "-".toList ++ timestamp ++
              ".zip".toList⟩
        else artifact
      -- a failed `ExportZIP` is logged, and the loop goes on
      let zipped := env.exportZIP w artifact deployDir
      let r := exportArtifacts env deployDir rest zipped.2
      ⟨r.err, artifact :: r.exported, r.world⟩

/-- The state after the calls of `ExportZIP` on `exported`, in order, from the
state `w`. -/
def zipAll {W : Type} (env : ExportEnv W) (deployDir : GoString)
    (exported : List Artifact) (w : W) : W :=
  exported.foldl (fun w a => (env.exportZIP w a deployDir).2) w

/-- The existence check of the target name `Name + ".zip"` of artifact `a` in
the deploy directory, at the state `w`. -/
def targetCheck {W : Type} (env : ExportEnv W) (deployDir : GoString) (a : Artifact)
    (w : W) : Bool × Option GoString :=
  env.isPathExists w (env.join deployDir (a.Name ++ ".zip".toList))

/-! ## tryExportTestAddonArtifact -/

/-- Modelled from the spec: the constant `OtherDirName` is not declared in
`main.go`; the spec names the special category "other". -/
def OtherDirName : GoString := "other".toList

/-- The arguments of one call of `testaddon.ExportArtifact`. -/
structure TestAddonExport where
  /-- The path of the artifact. -/
  artifactPth : GoString
  /-- The test result directory. -/
  outputDir : GoString
  /-- The subdirectory the artifact is exported to. -/
  dir : GoString
  deriving DecidableEq, Repr

/-- The function `tryExportTestAddonArtifact`: the call of
`testaddon.ExportArtifact` it makes and the index it returns. The function
`getExportDir`, which is not defined in `main.go`, is a parameter. -/
def tryExportTestAddonArtifact (getExportDir : GoString → GoString)
    (artifactPth outputDir : GoString) (lastOtherDirIdx : Int) :
    TestAddonExport × Int :=
  let dir := getExportDir artifactPth
  if dir = OtherDirName then
    let lastOtherDirIdx := lastOtherDirIdx + 1
    if lastOtherDirIdx > 0 then
      (⟨artifactPth, outputDir, dir ++ "-".toList ++ itoa lastOtherDirIdx⟩, lastOtherDirIdx)
    else (⟨artifactPth, outputDir, dir⟩, lastOtherDirIdx)
  else (⟨artifactPth, outputDir, dir⟩, lastOtherDirIdx)

/-- The loop of `main` over `resultXMLs` (lines 325 to 327), from the index
`lastOtherDirIdx`: the calls of `testaddon.ExportArtifact`, in order. -/
def exportTestAddonLoop (getExportDir : GoString → GoString) (outputDir : GoString) :
    List GoString → Int → List TestAddonExport
  | [], _ => []
  | artifactPth :: rest, lastOtherDirIdx =>
    let r := tryExportTestAddonArtifact getExportDir artifactPth outputDir lastOtherDirIdx
    r.1 :: exportTestAddonLoop getExportDir outputDir rest r.2

/-- The test-addon export of `main` (lines 324 to 327): the loop from index `-1`. -/
def exportTestAddonResults (getExportDir : GoString → GoString)
    (outputDir : GoString) (paths : List GoString) : List TestAddonExport :=
  exportTestAddonLoop getExportDir outputDir paths (-1)

/-- The number of paths of the special category among `paths`. -/
def countOther (getExportDir : GoString → GoString) (paths : List GoString) : Nat :=
  (paths.filter (fun p => getExportDir p = OtherDirName)).length

/-! ## Sample inputs -/

/-- A project whose report directory search finds `new` from the threshold
`100` on, and `new` and the older `stale` without a threshold. -/
def staleProject : Project where
  FindDirs := fun t _ _ =>
    if t = 100 then ([⟨"build/new".toList, "new".toList⟩], none)
    else ([⟨"build/new".toList, "new".toList⟩, ⟨"build/stale".toList, "stale".toList⟩], none)
  FindArtifacts := fun _ _ _ => ([], none)

/-- An environment over the list of the names present in the deploy directory,
at a fixed time, in which every `ExportZIP` fails (and so writes nothing). -/
def failingZipEnv : ExportEnv (List GoString) where
  join := fun dir name => dir ++ "/".toList ++ name
  isPathExists := fun w p => (decide (p ∈ w), none)
  now := fun _ => ⟨2026, 11, 1, 9, 5, 0⟩
  exportZIP := fun w _ _ => (some "zip failed".toList, w)

/-- An environment in which the existence check itself fails. -/
def failingCheckEnv : ExportEnv Unit where
  join := fun dir name => dir ++ "/".toList ++ name
  isPathExists := fun _ _ => (false, some "permission denied".toList)
  now := fun _ => ⟨2026, 11, 1, 9, 5, 0⟩
  exportZIP := fun w _ _ => (none, w)

/-- An environment over the list of the paths present, at a fixed time, in
which `ExportZIP` succeeds and writes the file `deployDir/Name`, and the
existence check fails on the path `deploy/locked.zip` and on no other. -/
def recordingEnv : ExportEnv (List GoString) where
  join := fun dir name => dir ++ "/".toList ++ name
  isPathExists := fun w p =>
    (decide (p ∈ w),
      if p = "deploy/locked.zip".toList then some "permission denied".toList else none)
  now := fun _ => ⟨2026, 11, 1, 9, 5, 0⟩
  exportZIP := fun w a dir => (none, (dir ++ "/".toList ++ a.Name) :: w)

/-- A category function that sends every path of one character to the special
category and every other path to itself. -/
def sampleExportDir (p : GoString) : GoString :=
  if p.length < 2 then OtherDirName else p
/-! ## Lemmas on the string functions -/

theorem split_ne_nil (sep : Char) (s : GoString) : split sep s ≠ [] := by
  cases s with
  | nil => simp [split]
  | cons c cs =>
    unfold split
    split_ifs
    · simp
    · split <;> simp

theorem split_cons_ne (sep c : Char) (cs : GoString) (h : c ≠ sep) :
    split sep (c :: cs) =
      (c :: (split sep cs).headD []) :: (split sep cs).tail := by
  have hne := split_ne_nil sep cs
  rw [split, if_neg h]
  cases hs : split sep cs with
  | nil => exact absurd hs hne
  | cons w ws => simp

theorem split_cons_eq (sep : Char) (cs : GoString) :
    split sep (sep :: cs) = [] :: split sep cs := by
  rw [split, if_pos rfl]

theorem split_append_sep (sep : Char) (a b : GoString) :
    split sep (a ++ sep :: b) = split sep a ++ split sep b := by
  induction a with
  | nil => simp [split]
  | cons c cs ih =>
    by_cases h : c = sep
    · subst h
      simp [split_cons_eq, ih]
    · rw [List.cons_append, split_cons_ne sep c _ h, split_cons_ne sep c _ h, ih]
      cases hs : split sep cs with
      | nil => exact absurd hs (split_ne_nil sep cs)
      | cons w ws => simp

theorem split_no_sep (sep : Char) (s : GoString) (h : sep ∉ s) : split sep s = [s] := by
  induction s with
  | nil => simp [split]
  | cons c cs ih =>
    simp only [List.mem_cons, not_or] at h
    rw [split_cons_ne sep c cs (Ne.symm h.1), ih h.2]
    simp

theorem not_mem_of_mem_split (sep : Char) (s l : GoString) (h : l ∈ split sep s) :
    sep ∉ l := by
  induction s generalizing l with
  | nil => simp [split] at h; subst h; simp
  | cons c cs ih =>
    by_cases hc : c = sep
    · subst hc
      rw [split_cons_eq] at h
      rcases List.mem_cons.1 h with h | h
      · subst h; simp
      · exact ih l h
    · rw [split_cons_ne sep c cs hc] at h
      have hne := split_ne_nil sep cs
      cases hs : split sep cs with
      | nil => exact absurd hs hne
      | cons w ws =>
        rw [hs] at h ih
        simp only [List.headD_cons, List.tail_cons, List.mem_cons] at h
        rcases h with h | h
        · subst h
          have := ih w (by simp)
          simp [Ne.symm hc, this]
        · exact ih l (by simp [h])

theorem join_split (sep : Char) (s : GoString) : join [sep] (split sep s) = s := by
  induction s with
  | nil => simp [split, join]
  | cons c cs ih =>
    by_cases hc : c = sep
    · subst hc
      rw [split_cons_eq]
      cases hs : split c cs with
      | nil => exact absurd hs (split_ne_nil c cs)
      | cons w ws => rw [hs] at ih; simp [join, ih]
    · rw [split_cons_ne sep c cs hc]
      cases hs : split sep cs with
      | nil => exact absurd hs (split_ne_nil sep cs)
      | cons w ws =>
        rw [hs] at ih
        cases ws with
        | nil => simpa [join] using ih
        | cons w2 ws2 => simp only [join, List.headD_cons, List.tail_cons] at ih ⊢; simp [← ih]

theorem split_join (sep : Char) (ls : List GoString) (hne : ls ≠ [])
    (h : ∀ l ∈ ls, sep ∉ l) : split sep (join [sep] ls) = ls := by
  induction ls with
  | nil => exact absurd rfl hne
  | cons x rest ih =>
    cases rest with
    | nil => simpa [join] using split_no_sep sep x (h x (by simp))
    | cons y r =>
      have h1 : join [sep] (x :: y :: r) = x ++ sep :: join [sep] (y :: r) := by
        simp [join]
      rw [h1, split_append_sep, split_no_sep sep x (h x (by simp)),
        ih (by simp) (fun l hl => h l (List.mem_cons_of_mem _ hl))]
      simp
theorem trimSpace_eq (s : GoString) :
    trimSpace s = (s.dropWhile isSpace).rdropWhile isSpace := rfl

theorem rdropWhile_append_tok (tok : GoString)
    (hns : ∀ c ∈ tok, isSpace c = false) (x : GoString) :
    ∃ r, (tok ++ x).rdropWhile isSpace = tok ++ r ∧ r <+: x := by
  induction x using List.reverseRecOn with
  | nil =>
    refine ⟨[], ?_, List.prefix_refl _⟩
    simp only [List.append_nil]
    rw [List.rdropWhile_eq_self_iff]
    intro h
    simp [hns _ (List.getLast_mem h)]
  | append_singleton y a ih =>
    obtain ⟨r, hr, hpre⟩ := ih
    by_cases ha : isSpace a = true
    · refine ⟨r, ?_, hpre.trans (List.prefix_append _ _)⟩
      rw [← List.append_assoc, List.rdropWhile_concat_pos _ _ _ ha, hr]
    · refine ⟨y ++ [a], ?_, List.prefix_refl _⟩
      rw [← List.append_assoc, List.rdropWhile_concat_neg _ _ _ ha]

theorem firstToken_trimSpace (tok rest : GoString) (hne : tok ≠ [])
    (hns : ∀ c ∈ tok, isSpace c = false) :
    firstToken (trimSpace (tok ++ ' ' :: rest)) = tok ∧
      trimSpace (tok ++ ' ' :: rest) ≠ [] := by
  have hsp : ' ' ∉ tok := fun h => by simpa [isSpace] using hns _ h
  have hd : (tok ++ ' ' :: rest).dropWhile isSpace = tok ++ ' ' :: rest := by
    cases tok with
    | nil => exact absurd rfl hne
    | cons c cs => simp [List.dropWhile, hns c (by simp)]
  obtain ⟨r, hr, hpre⟩ := rdropWhile_append_tok tok hns (' ' :: rest)
  rw [trimSpace_eq, hd, hr]
  refine ⟨?_, by simp [hne]⟩
  cases r with
  | nil => simp [firstToken, split_no_sep _ _ hsp]
  | cons c cs =>
    have hc : c = ' ' := by
      obtain ⟨t, ht⟩ := hpre
      simp only [List.cons_append, List.cons.injEq] at ht
      exact ht.1
    subst hc
    simp [firstToken, split_append_sep, split_no_sep _ _ hsp]

theorem splitModule_qualified (m leaf : GoString) (hleaf : ':' ∉ leaf) :
    splitModule (m ++ ':' :: leaf) = (m, leaf) := by
  have hne := split_ne_nil ':' m
  have hlen : 0 < (split ':' m).length := List.length_pos.2 hne
  unfold splitModule
  simp only [split_append_sep, split_no_sep _ _ hleaf, List.length_append,
    List.length_singleton]
  rw [if_pos (by omega)]
  simp [join_split]

theorem splitModule_unqualified (l : GoString) (h : ':' ∉ l) :
    splitModule l = ([], l) := by
  simp [splitModule, split_no_sep _ _ h]

theorem cleanStringSlice_singleton (x : GoString) : cleanStringSlice [x] = [x] := by
  simp [cleanStringSlice]

theorem parseLine_of_conflict (name : GoString) (conflicts tasks : Variants)
    (line : GoString)
    (hc : ∃ c ∈ conflicts.index name, hasPrefix (leafOf line) c = true) :
    parseLine name conflicts tasks line = tasks := by
  obtain ⟨c, hcm, hcp⟩ := hc
  unfold parseLine
  simp only
  split_ifs with h1 h2 h3 h4
  · rfl
  · rfl
  · exact absurd (List.any_eq_true.2 ⟨c, hcm, hcp⟩) h3
  · exact absurd (List.any_eq_true.2 ⟨c, hcm, hcp⟩) h3
  · rfl

theorem parseLines_nil_line (name : GoString) (conflicts : Variants) :
    parseLines name conflicts [[]] = [] := by
  simp [parseLines, parseLine, trimSpace]

/-! ## Lemmas on maps -/

theorem Variants.lookup_set_self (m : Variants) (k : GoString) (v : List GoString) :
    (m.set k v).lookup k = some v := by
  induction m with
  | nil => simp [Variants.set, Variants.lookup]
  | cons e rest ih =>
    obtain ⟨k', v'⟩ := e
    by_cases h : k' = k
    · simp [Variants.set, Variants.lookup, h]
    · simp [Variants.set, Variants.lookup, h, ih]

theorem Variants.lookup_set_ne (m : Variants) (k k2 : GoString) (v : List GoString)
    (hne : k2 ≠ k) : (m.set k v).lookup k2 = m.lookup k2 := by
  induction m with
  | nil => simp [Variants.set, Variants.lookup, Ne.symm hne]
  | cons e rest ih =>
    obtain ⟨k', v'⟩ := e
    by_cases h : k' = k
    · subst h
      simp [Variants.set, Variants.lookup, Ne.symm hne]
    · by_cases h2 : k' = k2
      · subst h2
        simp [Variants.set, Variants.lookup, h]
      · simp [Variants.set, Variants.lookup, h, h2, ih]

theorem Variants.index_set_self (m : Variants) (k : GoString) (v : List GoString) :
    (m.set k v).index k = v := by
  simp [Variants.index, Variants.lookup_set_self]

theorem Variants.index_set_ne (m : Variants) (k k2 : GoString) (v : List GoString)
    (hne : k2 ≠ k) : (m.set k v).index k2 = m.index k2 := by
  simp [Variants.index, Variants.lookup_set_ne _ _ _ _ hne]

theorem Variants.mem_of_lookup (m : Variants) (k : GoString) (v : List GoString)
    (h : m.lookup k = some v) : (k, v) ∈ m := by
  induction m with
  | nil => simp [Variants.lookup] at h
  | cons e rest ih =>
    obtain ⟨k', v'⟩ := e
    by_cases hk : k' = k
    · subst hk
      simp [Variants.lookup] at h
      simp [h]
    · simp only [Variants.lookup, if_neg hk] at h
      exact List.mem_cons_of_mem _ (ih h)

theorem Variants.lookup_eq_none_iff (m : Variants) (k : GoString) :
    m.lookup k = none ↔ k ∉ m.map Prod.fst := by
  induction m with
  | nil => simp [Variants.lookup]
  | cons e rest ih =>
    obtain ⟨k', v'⟩ := e
    by_cases hk : k' = k
    · simp [Variants.lookup, hk]
    · simp only [Variants.lookup, if_neg hk, ih]
      simp [Ne.symm hk]

theorem Variants.lookup_of_mem (m : Variants) (hwf : m.WF) (k : GoString)
    (v : List GoString) (h : (k, v) ∈ m) : m.lookup k = some v := by
  induction m with
  | nil => simp at h
  | cons e rest ih =>
    obtain ⟨k', v'⟩ := e
    have hwf2 : (k' ∉ rest.map Prod.fst) ∧ (rest.map Prod.fst).Nodup := by
      simpa [Variants.WF] using hwf
    rcases List.mem_cons.1 h with h | h
    · cases h
      simp [Variants.lookup]
    · have hk : k' ≠ k := by
        intro hk
        subst hk
        exact hwf2.1 (List.mem_map.2 ⟨(k', v), h, rfl⟩)
      simp only [Variants.lookup, if_neg hk]
      exact ih hwf2.2 h

theorem Variants.keys_set (m : Variants) (k : GoString) (v : List GoString) :
    (m.set k v).map Prod.fst =
      if k ∈ m.map Prod.fst then m.map Prod.fst else m.map Prod.fst ++ [k] := by
  induction m with
  | nil => simp [Variants.set]
  | cons e rest ih =>
    obtain ⟨k', v'⟩ := e
    by_cases hk : k' = k
    · simp [Variants.set, hk]
    · simp only [Variants.set, if_neg hk, List.map_cons, ih, List.mem_cons]
      by_cases hm : k ∈ rest.map Prod.fst
      · simp [hm]
      · simp [hm, Ne.symm hk]

theorem Variants.set_WF (m : Variants) (hwf : m.WF) (k : GoString)
    (v : List GoString) : (m.set k v).WF := by
  unfold Variants.WF at *
  rw [Variants.keys_set]
  split_ifs with h
  · exact hwf
  · exact List.Nodup.append hwf (by simp) (by simpa using h)

theorem Variants.mem_set (m : Variants) (k k2 : GoString) (v v2 : List GoString)
    (h : (k2, v2) ∈ m.set k v) : (k2 = k ∧ v2 = v) ∨ (k2, v2) ∈ m := by
  induction m with
  | nil => simp [Variants.set] at h; exact Or.inl h
  | cons e rest ih =>
    obtain ⟨k', v'⟩ := e
    by_cases hk : k' = k
    · simp only [Variants.set, if_pos hk, List.mem_cons, Prod.mk.injEq] at h
      rcases h with h | h
      · exact Or.inl h
      · exact Or.inr (List.mem_cons_of_mem _ h)
    · simp only [Variants.set, if_neg hk, List.mem_cons, Prod.mk.injEq] at h
      rcases h with h | h
      · exact Or.inr (by simp [h])
      · rcases ih h with h | h
        · exact Or.inl h
        · exact Or.inr (List.mem_cons_of_mem _ h)

/-! ## Lemmas for the deduplication of variants -/

theorem cleanStringSlice_concat (xs : List GoString) (a : GoString) :
    cleanStringSlice (xs ++ [a]) =
      if a ∈ cleanStringSlice xs then cleanStringSlice xs
      else cleanStringSlice xs ++ [a] := by
  simp [cleanStringSlice, List.foldl_append]

theorem mem_cleanStringSlice (xs : List GoString) (v : GoString) :
    v ∈ cleanStringSlice xs ↔ v ∈ xs := by
  induction xs using List.reverseRecOn with
  | nil => simp [cleanStringSlice]
  | append_singleton ys a ih =>
    rw [cleanStringSlice_concat]
    split_ifs with h
    · simp only [List.mem_append, List.mem_singleton, ih]
      constructor
      · exact Or.inl
      · rintro (h1 | h1)
        · exact h1
        · subst h1; exact ih.1 h
    · simp [ih]

theorem firstIndex_append_of_mem (v : GoString) (xs ys : List GoString) (h : v ∈ xs) :
    firstIndex v (xs ++ ys) = firstIndex v xs := by
  induction xs with
  | nil => simp at h
  | cons x rest ih =>
    by_cases hx : x = v
    · simp [firstIndex, hx]
    · have : v ∈ rest := by
        rcases List.mem_cons.1 h with h | h
        · exact absurd h.symm hx
        · exact h
      simp [firstIndex, hx, ih this]

theorem firstIndex_append_of_not_mem (v : GoString) (xs ys : List GoString)
    (h : v ∉ xs) : firstIndex v (xs ++ ys) = xs.length + firstIndex v ys := by
  induction xs with
  | nil => simp
  | cons x rest ih =>
    simp only [List.mem_cons, not_or] at h
    simp [firstIndex, Ne.symm h.1, ih h.2]
    omega

theorem firstIndex_lt_length (v : GoString) (xs : List GoString) (h : v ∈ xs) :
    firstIndex v xs < xs.length := by
  induction xs with
  | nil => simp at h
  | cons x rest ih =>
    by_cases hx : x = v
    · simp [firstIndex, hx]
    · have : v ∈ rest := by
        rcases List.mem_cons.1 h with h | h
        · exact absurd h.symm hx
        · exact h
      simp [firstIndex, hx, ih this]

theorem cleanStringSlice_first_seen (xs : List GoString) :
    (cleanStringSlice xs).Pairwise (fun u v => firstIndex u xs < firstIndex v xs) := by
  induction xs using List.reverseRecOn with
  | nil => simp [cleanStringSlice]
  | append_singleton ys a ih =>
    have hold : (cleanStringSlice ys).Pairwise
        (fun u v => firstIndex u (ys ++ [a]) < firstIndex v (ys ++ [a])) := by
      refine List.Pairwise.imp_of_mem ?_ ih
      intro u v hu hv huv
      rw [firstIndex_append_of_mem _ _ _ ((mem_cleanStringSlice ys u).1 hu),
        firstIndex_append_of_mem _ _ _ ((mem_cleanStringSlice ys v).1 hv)]
      exact huv
    rw [cleanStringSlice_concat]
    split_ifs with h
    · exact hold
    · rw [List.pairwise_append]
      refine ⟨hold, by simp, ?_⟩
      intro u hu v hv
      have hv2 : v = a := by simpa using hv
      subst hv2
      have hu2 : u ∈ ys := (mem_cleanStringSlice ys u).1 hu
      have hv3 : v ∉ ys := fun hc => h ((mem_cleanStringSlice ys v).2 hc)
      rw [firstIndex_append_of_mem _ _ _ hu2, firstIndex_append_of_not_mem _ _ _ hv3]
      have := firstIndex_lt_length _ _ hu2
      omega

theorem cleanStringSlice_nodup (xs : List GoString) : (cleanStringSlice xs).Nodup := by
  have h := cleanStringSlice_first_seen xs
  unfold List.Nodup
  refine List.Pairwise.imp ?_ h
  intro u v huv heq
  subst heq
  exact absurd huv (lt_irrefl _)

theorem parseLine_eq_lineEntry (name : GoString) (conflicts tasks : Variants)
    (line : GoString) :
    parseLine name conflicts tasks line =
      match lineEntry name conflicts line with
      | none => tasks
      | some e => tasks.set e.1 (tasks.index e.1 ++ [e.2]) := by
  unfold parseLine lineEntry
  simp only
  by_cases h0 : trimSpace line = []
  · simp [h0]
  · simp only [if_neg h0]
    by_cases h1 : hasPrefix (splitModule (firstToken (trimSpace line))).2 name = true
    · by_cases h2 : (conflicts.index name).any
          (fun conflict =>
            hasPrefix (splitModule (firstToken (trimSpace line))).2 conflict) = true
      · have h2n : ¬ ∀ c ∈ conflicts.index name,
            hasPrefix (splitModule (firstToken (trimSpace line))).2 c = false := by
          obtain ⟨c, hc, hp⟩ := List.any_eq_true.1 h2
          intro hall
          rw [hall c hc] at hp
          exact absurd hp (by decide)
        simp [h1, h2, h2n]
      · have h2a : ∀ c ∈ conflicts.index name,
            hasPrefix (splitModule (firstToken (trimSpace line))).2 c = false := by
          intro c hc
          by_contra hp
          exact h2 (List.any_eq_true.2 ⟨c, hc, by simpa using hp⟩)
        by_cases h3 : trimPrefix (splitModule (firstToken (trimSpace line))).2 name = []
        · simp [h1, h2, h3]
        · rw [if_pos h1, if_neg h2, if_neg h3, if_pos ⟨h1, h2a, h3⟩]
    · simp [h1]

theorem foldl_parseLine_inv (name : GoString) (conflicts : Variants)
    (lines : List GoString) (init : Variants) (hwf : init.WF)
    (hne : ∀ k v, (k, v) ∈ init → v ≠ []) :
    (lines.foldl (parseLine name conflicts) init).WF ∧
      (∀ k v, (k, v) ∈ lines.foldl (parseLine name conflicts) init → v ≠ []) ∧
      ∀ m, (lines.foldl (parseLine name conflicts) init).index m =
        init.index m ++ ((lines.filterMap (lineEntry name conflicts)).filterMap
          (fun e => if e.1 = m then some e.2 else none)) := by
  induction lines generalizing init with
  | nil => simp [hwf]; exact hne
  | cons l rest ih =>
    simp only [List.foldl_cons]
    rw [parseLine_eq_lineEntry]
    cases he : lineEntry name conflicts l with
    | none =>
      simp only [List.filterMap_cons, he]
      exact ih init hwf hne
    | some e =>
      obtain ⟨k, x⟩ := e
      simp only [List.filterMap_cons, he]
      have hwf2 := Variants.set_WF init hwf k (init.index k ++ [x])
      have hne2 : ∀ k2 v2, (k2, v2) ∈ init.set k (init.index k ++ [x]) → v2 ≠ [] := by
        intro k2 v2 hmem
        rcases Variants.mem_set _ _ _ _ _ hmem with h | h
        · rw [h.2]; simp
        · exact hne k2 v2 h
      obtain ⟨h1, h2, h3⟩ := ih _ hwf2 hne2
      refine ⟨h1, h2, ?_⟩
      intro m
      rw [h3 m]
      by_cases hk : k = m
      · subst hk
        simp [Variants.index_set_self]
      · simp [Variants.index_set_ne _ _ _ _ (Ne.symm hk), hk]

theorem Variants.index_nil (m : GoString) : Variants.index [] m = [] := rfl

/-! ## Lemmas on filterVariants -/

theorem Variants.set_set (m : Variants) (k : GoString) (v w : List GoString) :
    (m.set k v).set k w = m.set k w := by
  induction m with
  | nil => simp [Variants.set]
  | cons e rest ih =>
    obtain ⟨k', v'⟩ := e
    by_cases hk : k' = k
    · simp [Variants.set, hk]
    · simp [Variants.set, hk, ih]

theorem Variants.set_ne_nil (m : Variants) (k : GoString) (v : List GoString) :
    m.set k v ≠ [] := by
  cases m with
  | nil => simp [Variants.set]
  | cons e rest =>
    obtain ⟨k', v'⟩ := e
    simp only [Variants.set]
    split_ifs <;> simp

theorem filterModule_eq (lower : Char → Char) (variant : GoString) (f : Variants)
    (m : GoString) (vs : List GoString) :
    filterModule lower variant f m vs =
      if vs.filter (matchesVariant lower variant) = [] then f
      else f.set m (f.index m ++ vs.filter (matchesVariant lower variant)) := by
  induction vs generalizing f with
  | nil => simp [filterModule]
  | cons v rest ih =>
    have hstep : filterModule lower variant f m (v :: rest) =
        filterModule lower variant
          (if matchesVariant lower variant v then f.set m (f.index m ++ [v]) else f)
          m rest := by
      simp [filterModule]
    rw [hstep, ih]
    by_cases hv : matchesVariant lower variant v = true
    · simp only [hv, if_true, List.filter_cons_of_pos, Variants.index_set_self,
        Variants.set_set]
      by_cases hr : rest.filter (matchesVariant lower variant) = []
      · simp [hr]
      · simp [hr]
    · simp [hv]

theorem filterLoop_eq_nil_iff (lower : Char → Char) (variant : GoString)
    (vm init : Variants) :
    vm.foldl (fun filtered mv => filterModule lower variant filtered mv.1 mv.2) init = [] ↔
      init = [] ∧ ∀ m vs, (m, vs) ∈ vm → vs.filter (matchesVariant lower variant) = [] := by
  induction vm generalizing init with
  | nil => simp
  | cons e rest ih =>
    obtain ⟨k, vs⟩ := e
    rw [List.foldl_cons, ih, filterModule_eq]
    by_cases hf : vs.filter (matchesVariant lower variant) = []
    · rw [if_pos hf]
      constructor
      · rintro ⟨h1, h2⟩
        refine ⟨h1, ?_⟩
        intro m ws hmem
        rcases List.mem_cons.1 hmem with h | h
        · cases h
          exact hf
        · exact h2 m ws h
      · rintro ⟨h1, h2⟩
        exact ⟨h1, fun m ws h => h2 m ws (List.mem_cons_of_mem _ h)⟩
    · rw [if_neg hf]
      constructor
      · rintro ⟨h1, _⟩
        exact absurd h1 (Variants.set_ne_nil _ _ _)
      · rintro ⟨_, h2⟩
        exact absurd (h2 k vs (List.mem_cons_self _ _)) hf

theorem filterLoop_lookup (lower : Char → Char) (variant : GoString)
    (vm init : Variants) (hvm : vm.WF) (hinit : init.WF)
    (hdisj : ∀ k ∈ vm.map Prod.fst, init.lookup k = none) :
    (vm.foldl (fun filtered mv => filterModule lower variant filtered mv.1 mv.2) init).WF ∧
      ∀ m, (vm.foldl (fun filtered mv =>
          filterModule lower variant filtered mv.1 mv.2) init).lookup m =
        match vm.lookup m with
        | none => init.lookup m
        | some vs =>
          if vs.filter (matchesVariant lower variant) = [] then none
          else some (vs.filter (matchesVariant lower variant)) := by
  induction vm generalizing init with
  | nil => simp [hinit, Variants.lookup]
  | cons e rest ih =>
    obtain ⟨k, vs⟩ := e
    have hwf2 : (k ∉ rest.map Prod.fst) ∧ (rest.map Prod.fst).Nodup := by
      simpa [Variants.WF] using hvm
    have hk0 : init.lookup k = none := hdisj k (by simp)
    have hrest : Variants.lookup rest k = none :=
      (Variants.lookup_eq_none_iff rest k).2 hwf2.1
    simp only [List.foldl_cons]
    have hinit2 : (filterModule lower variant init k vs).WF := by
      rw [filterModule_eq]
      split_ifs
      · exact hinit
      · exact Variants.set_WF _ hinit _ _
    have hdisj2 : ∀ k2 ∈ rest.map Prod.fst,
        (filterModule lower variant init k vs).lookup k2 = none := by
      intro k2 hk2
      have hne : k2 ≠ k := fun h => hwf2.1 (h ▸ hk2)
      rw [filterModule_eq]
      split_ifs
      · exact hdisj k2 (by simp [hk2])
      · rw [Variants.lookup_set_ne _ _ _ _ hne]
        exact hdisj k2 (by simp [hk2])
    obtain ⟨h1, h2⟩ := ih (filterModule lower variant init k vs) hwf2.2 hinit2 hdisj2
    refine ⟨h1, ?_⟩
    intro m
    rw [h2 m]
    by_cases hm : k = m
    · subst hm
      rw [hrest]
      simp only [Variants.lookup, if_true]
      rw [filterModule_eq]
      split_ifs with hf
      · exact hk0
      · simp [Variants.lookup_set_self, Variants.index, hk0]
    · simp only [Variants.lookup, if_neg hm]
      cases hl : Variants.lookup rest m with
      | none =>
        simp only
        rw [filterModule_eq]
        split_ifs
        · rfl
        · exact Variants.lookup_set_ne _ _ _ _ (Ne.symm hm)
      | some ws => rfl

theorem filterVariants_all_modules (lower : Char → Char) (variant : GoString)
    (vm : Variants) (hv : variant ≠ []) :
    filterVariants lower [] variant vm =
      if vm.foldl (fun filtered mv => filterModule lower variant filtered mv.1 mv.2) [] = []
      then Except.error (FilterError.variantNotFound variant)
      else Except.ok
        (vm.foldl (fun filtered mv => filterModule lower variant filtered mv.1 mv.2) []) := by
  simp [filterVariants, hv, List.length_eq_zero]

/-! ## Lemmas on the export functions -/

theorem getArtifacts_of_first_ok (gradleProject : Project) (started : Time)
    (pattern : GoString) (includeModuleName isDirectoryMode : Bool)
    (hok : (if isDirectoryMode then gradleProject.FindDirs started pattern includeModuleName
      else gradleProject.FindArtifacts started pattern includeModuleName).2 = none) :
    getArtifacts gradleProject started pattern includeModuleName isDirectoryMode =
      if isDirectoryMode then gradleProject.FindDirs zeroTime pattern includeModuleName
      else gradleProject.FindArtifacts zeroTime pattern includeModuleName := by
  unfold getArtifacts
  simp only [getArtifactsLoop, hok, ne_eq, not_true_eq_false, if_false, ite_self]

theorem digitChar_toNat (d : Nat) (h : d < 10) : (Nat.digitChar d).toNat - 48 = d := by
  interval_cases d <;> rfl

theorem digitChar_isDigit (d : Nat) (h : d < 10) : (Nat.digitChar d).isDigit = true := by
  interval_cases d <;> rfl

theorem ofDigits_concat (s : GoString) (c : Char) :
    ofDigits (s ++ [c]) = ofDigits s * 10 + (c.toNat - 48) := by
  simp [ofDigits, List.foldl_append]

theorem ofDigits_natDigits (fuel n : Nat) (h : n < fuel) :
    ofDigits (natDigits fuel n) = n := by
  induction fuel generalizing n with
  | zero => omega
  | succ f ih =>
    unfold natDigits
    split_ifs with h10
    · simp [ofDigits, digitChar_toNat n h10]
    · rw [ofDigits_concat, ih (n / 10) (by omega),
        digitChar_toNat (n % 10) (Nat.mod_lt _ (by norm_num))]
      omega

theorem itoaNat_injective (a b : Nat) (h : itoaNat a = itoaNat b) : a = b := by
  have ha := ofDigits_natDigits (a + 1) a (by omega)
  have hb := ofDigits_natDigits (b + 1) b (by omega)
  unfold itoaNat at h
  rw [h] at ha
  omega

theorem natDigits_isDigit (fuel n : Nat) :
    ∀ c ∈ natDigits fuel n, c.isDigit = true := by
  induction fuel generalizing n with
  | zero => simp [natDigits]
  | succ f ih =>
    unfold natDigits
    split_ifs with h10
    · intro c hc
      rw [List.mem_singleton.1 hc]
      exact digitChar_isDigit n h10
    · intro c hc
      rcases List.mem_append.1 hc with h | h
      · exact ih _ c h
      · rw [List.mem_singleton.1 h]
        exact digitChar_isDigit _ (Nat.mod_lt _ (by norm_num))

theorem natDigits_length_le (fuel n w : Nat) (hw : 0 < w) (h : n < 10 ^ w) :
    (natDigits fuel n).length ≤ w := by
  induction fuel generalizing n w with
  | zero => simp [natDigits]
  | succ f ih =>
    unfold natDigits
    split_ifs with h10
    · simpa using hw
    · obtain ⟨w2, rfl⟩ : ∃ w2, w = w2 + 1 := ⟨w - 1, by omega⟩
      have hw2 : 0 < w2 := by
        rcases Nat.eq_zero_or_pos w2 with h0 | h0
        · subst h0
          simp at h
          omega
        · exact h0
      have hdiv : n / 10 < 10 ^ w2 := by
        rw [Nat.div_lt_iff_lt_mul (by norm_num)]
        rw [pow_succ] at h
        exact h
      have := ih (n / 10) w2 hw2 hdiv
      simp only [List.length_append, List.length_singleton]
      omega

theorem appendInt_length (x w : Nat) (hw : 0 < w) (h : x < 10 ^ w) :
    (appendInt x w).length = w := by
  have := natDigits_length_le (x + 1) x w hw h
  unfold appendInt itoaNat
  simp only [List.length_append, List.length_replicate]
  omega

theorem appendInt_isDigit (x w : Nat) : ∀ c ∈ appendInt x w, c.isDigit = true := by
  intro c hc
  unfold appendInt at hc
  rcases List.mem_append.1 hc with h | h
  · rw [(List.mem_replicate.1 h).2]
    rfl
  · exact natDigits_isDigit _ _ c h

theorem formatTimestamp_length (t : DateTime) (h : t.valid) :
    (formatTimestamp t).length = 14 := by
  obtain ⟨h1, _, h2, _, h3, h4, h5, h6⟩ := h
  unfold formatTimestamp
  simp only [List.length_append]
  rw [appendInt_length t.year 4 (by norm_num) (by norm_num; omega),
    appendInt_length t.month 2 (by norm_num) (by norm_num; omega),
    appendInt_length t.day 2 (by norm_num) (by norm_num; omega),
    appendInt_length t.hour 2 (by norm_num) (by norm_num; omega),
    appendInt_length t.minute 2 (by norm_num) (by norm_num; omega),
    appendInt_length t.second 2 (by norm_num) (by norm_num; omega)]

theorem formatTimestamp_isDigit (t : DateTime) :
    ∀ c ∈ formatTimestamp t, c.isDigit = true := by
  intro c hc
  unfold formatTimestamp at hc
  simp only [List.mem_append] at hc
  rcases hc with ((((h | h) | h) | h) | h) | h <;> exact appendInt_isDigit _ _ c h

theorem trimSuffix_append (s suf : GoString) : trimSuffix (s ++ suf) suf = s := by
  unfold trimSuffix hasSuffix
  have h : suf.isSuffixOf (s ++ suf) = true := by
    rw [List.isSuffixOf_iff_suffix]
    exact List.suffix_append s suf
  rw [if_pos h]
  simp

theorem exportArtifacts_cons_err {W : Type} (env : ExportEnv W)
    (deployDir : GoString) (a : Artifact) (rest : List Artifact) (w : W) (e : GoString)
    (hcheck : (targetCheck env deployDir a w).2 = some e) :
    exportArtifacts env deployDir (a :: rest) w =
      ⟨some ("failed to check path, error: ".toList ++ e), [], w⟩ := by
  unfold targetCheck at hcheck
  unfold exportArtifacts
  simp only [hcheck]

theorem exportArtifacts_cons_ok {W : Type} (env : ExportEnv W)
    (deployDir : GoString) (a : Artifact) (rest : List Artifact) (w : W)
    (hcheck : (targetCheck env deployDir a w).2 = none) :
    exportArtifacts env deployDir (a :: rest) w =
      ⟨(exportArtifacts env deployDir rest
          (env.exportZIP w ⟨a.Path,
            if (targetCheck env deployDir a w).1 = true then
              a.Name ++ "-".toList ++ formatTimestamp (env.now w) ++ ".zip".toList
            else a.Name ++ ".zip".toList⟩ deployDir).2).err,
        ⟨a.Path,
            if (targetCheck env deployDir a w).1 = true then
              a.Name ++ "-".toList ++ formatTimestamp (env.now w) ++ ".zip".toList
            else a.Name ++ ".zip".toList⟩ ::
          (exportArtifacts env deployDir rest
            (env.exportZIP w ⟨a.Path,
              if (targetCheck env deployDir a w).1 = true then
                a.Name ++ "-".toList ++ formatTimestamp (env.now w) ++ ".zip".toList
              else a.Name ++ ".zip".toList⟩ deployDir).2).exported,
        (exportArtifacts env deployDir rest
          (env.exportZIP w ⟨a.Path,
            if (targetCheck env deployDir a w).1 = true then
              a.Name ++ "-".toList ++ formatTimestamp (env.now w) ++ ".zip".toList
            else a.Name ++ ".zip".toList⟩ deployDir).2).world⟩ := by
  unfold targetCheck at hcheck ⊢
  rw [exportArtifacts]
  simp only [hcheck, trimSuffix_append]
  split_ifs <;> rfl

theorem zipAll_nil {W : Type} (env : ExportEnv W) (deployDir : GoString) (w : W) :
    zipAll env deployDir [] w = w := rfl

theorem zipAll_cons {W : Type} (env : ExportEnv W) (deployDir : GoString)
    (a : Artifact) (rest : List Artifact) (w : W) :
    zipAll env deployDir (a :: rest) w =
      zipAll env deployDir rest (env.exportZIP w a deployDir).2 := rfl

theorem exportArtifacts_trace {W : Type} (env : ExportEnv W) (deployDir : GoString)
    (artifacts : List Artifact) (w : W) :
    (exportArtifacts env deployDir artifacts w).world =
        zipAll env deployDir (exportArtifacts env deployDir artifacts w).exported w ∧
    (exportArtifacts env deployDir artifacts w).exported.map Artifact.Path <+:
        artifacts.map Artifact.Path ∧
    (∀ (i : Nat) (a x : Artifact), artifacts[i]? = some a →
      (exportArtifacts env deployDir artifacts w).exported[i]? = some x →
      (targetCheck env deployDir a (zipAll env deployDir
          ((exportArtifacts env deployDir artifacts w).exported.take i) w)).2 = none ∧
        x = Artifact.mk a.Path
          (if (targetCheck env deployDir a (zipAll env deployDir
              ((exportArtifacts env deployDir artifacts w).exported.take i) w)).1 = true
          then a.Name ++ "-".toList ++
            formatTimestamp (env.now (zipAll env deployDir
              ((exportArtifacts env deployDir artifacts w).exported.take i) w)) ++
            ".zip".toList
          else a.Name ++ ".zip".toList)) ∧
    ((exportArtifacts env deployDir artifacts w).err = none ↔
      (exportArtifacts env deployDir artifacts w).exported.length = artifacts.length) ∧
    (∀ a : Artifact,
      artifacts[(exportArtifacts env deployDir artifacts w).exported.length]? = some a →
      ∃ e, (targetCheck env deployDir a
            (exportArtifacts env deployDir artifacts w).world).2 = some e ∧
        (exportArtifacts env deployDir artifacts w).err =
          some ("failed to check path, error: ".toList ++ e)) := by
  induction artifacts generalizing w with
  | nil =>
    refine ⟨rfl, ?_, ?_, ?_, ?_⟩
    · simp [exportArtifacts]
    · intro i a x h
      simp at h
    · simp [exportArtifacts]
    · intro a h
      simp at h
  | cons a rest ih =>
    cases hc : (targetCheck env deployDir a w).2 with
    | some e =>
      rw [exportArtifacts_cons_err env deployDir a rest w e hc]
      refine ⟨rfl, ?_, ?_, ?_, ?_⟩
      · simp
      · intro i b x _ hx
        simp at hx
      · simp
      · intro b hb
        simp only [List.length_nil, List.getElem?_cons_zero, Option.some.injEq] at hb
        subst hb
        exact ⟨e, hc, rfl⟩
    | none =>
      rw [exportArtifacts_cons_ok env deployDir a rest w hc]
      obtain ⟨hA, hB, hC, hD1, hD2⟩ := ih (env.exportZIP w ⟨a.Path,
        if (targetCheck env deployDir a w).1 = true then
          a.Name ++ "-".toList ++ formatTimestamp (env.now w) ++ ".zip".toList
        else a.Name ++ ".zip".toList⟩ deployDir).2
      refine ⟨?_, ?_, ?_, ?_, ?_⟩
      · simp only [zipAll_cons]
        exact hA
      · simp only [List.map_cons]
        exact (List.prefix_cons_inj _).2 hB
      · intro i b x hb hx
        cases i with
        | zero =>
          simp only [List.getElem?_cons_zero, Option.some.injEq] at hb hx
          subst hb
          subst hx
          simp only [List.take_zero, zipAll_nil]
          exact ⟨hc, trivial⟩
        | succ n =>
          simp only [List.getElem?_cons_succ] at hb hx
          simp only [List.take_succ_cons, zipAll_cons]
          exact hC n b x hb hx
      · simp only [List.length_cons, add_left_inj]
        exact hD1
      · intro b hb
        simp only [List.length_cons, List.getElem?_cons_succ] at hb
        exact hD2 b hb

/-! ## Claims on parseAllVariants -/

/-- C1: a line of the task listing whose leaf task name starts with a prefix
registered as conflicting for the family contributes nothing: the loop body
leaves the map as it is on such a line, and the parse of the whole listing is
the parse of the listing with that line deleted. -/
theorem parseAllVariants_conflict_line_ignored (name : GoString)
    (conflicts : Variants) (text : GoString) (pre : List GoString)
    (line : GoString) (post : List GoString)
    (hsplit : split '\n' text = pre ++ line :: post)
    (hc : ∃ c ∈ conflicts.index name, hasPrefix (leafOf line) c = true) :
    (∀ tasks, parseLine name conflicts tasks line = tasks) ∧
      parseAllVariants name conflicts text =
        parseAllVariants name conflicts (join ['\n'] (pre ++ post)) := by
  have hstep : ∀ tasks, parseLine name conflicts tasks line = tasks :=
    fun tasks => parseLine_of_conflict name conflicts tasks line hc
  refine ⟨hstep, ?_⟩
  have hl : parseLines name conflicts (split '\n' text) =
      parseLines name conflicts (pre ++ post) := by
    simp [parseLines, hsplit, List.foldl_append, hstep]
  have hr : parseLines name conflicts (split '\n' (join ['\n'] (pre ++ post))) =
      parseLines name conflicts (pre ++ post) := by
    by_cases hnil : pre ++ post = []
    · rw [hnil]
      simp only [join, split]
      rw [parseLines_nil_line]
      rfl
    · rw [split_join _ _ hnil]
      intro l hl
      apply not_mem_of_mem_split '\n' text
      rw [hsplit]
      rcases List.mem_append.1 hl with h | h
      · exact List.mem_append_left _ h
      · exact List.mem_append_right _ (List.mem_cons_of_mem _ h)
  unfold parseAllVariants
  rw [hl, hr]

/-- C1, on the listing of the source comment: family `lint` with the conflict
prefix `lintVital`. -/
theorem parseAllVariants_conflict_line_ignored_witness :
    ((∀ tasks, parseLine "lint".toList [("lint".toList, ["lintVital".toList])] tasks
        "lintVitalMyflavorRelease - Runs lint.".toList = tasks) ∧
      parseAllVariants "lint".toList [("lint".toList, ["lintVital".toList])]
          "lintMyflavorRelease - Runs lint.\nlintVitalMyflavorRelease - Runs lint.".toList =
        parseAllVariants "lint".toList [("lint".toList, ["lintVital".toList])]
          (join ['\n'] (["lintMyflavorRelease - Runs lint.".toList] ++ []))) ∧
    parseAllVariants "lint".toList [("lint".toList, ["lintVital".toList])]
        "lintMyflavorRelease - Runs lint.\nlintVitalMyflavorRelease - Runs lint.".toList =
      [([], ["MyflavorRelease".toList])] :=
  ⟨parseAllVariants_conflict_line_ignored "lint".toList
      [("lint".toList, ["lintVital".toList])]
      "lintMyflavorRelease - Runs lint.\nlintVitalMyflavorRelease - Runs lint.".toList
      ["lintMyflavorRelease - Runs lint.".toList]
      "lintVitalMyflavorRelease - Runs lint.".toList [] (by decide)
      ⟨"lintVital".toList, by decide, by decide⟩,
    by decide⟩

/-- C2, as stated, fails: on the line `app:lint - desc` with family `lint` the
leaf starts with the family name, yet nothing is recorded for module `app`; and
with `lintVital` registered as a conflict of `lint` the line
`app:lintVitalRelease - desc` is rejected as well. -/
theorem parseAllVariants_single_line_counterexample :
    ¬ (hasPrefix "lint".toList "lint".toList = true →
        trimPrefix "lint".toList "lint".toList ∈
          (parseAllVariants "lint".toList [] "app:lint - desc".toList).index
            "app".toList) ∧
    parseAllVariants "lint".toList [] "app:lint - desc".toList = [] ∧
    hasPrefix "lintVitalRelease".toList "lint".toList = true ∧
    parseAllVariants "lint".toList [("lint".toList, ["lintVital".toList])]
      "app:lintVitalRelease - desc".toList = [] := by
  decide

/-- C2 (amended): on a single task line `<module>:<leaf> - <description>` the
module name is everything before the last `:` of the first token and the leaf
is the last segment. The result is the empty map when the leaf does not start
with the family name, when it starts with a prefix registered as conflicting
for the family, or when nothing remains after the family name is stripped;
otherwise it is exactly the map that gives the module the stripped leaf. -/
theorem parseAllVariants_single_line (name : GoString) (conflicts : Variants)
    (m leaf d : GoString)
    (hm : ∀ c ∈ m, isSpace c = false)
    (hleaf : ∀ c ∈ leaf, isSpace c = false ∧ c ≠ ':')
    (hd : '\n' ∉ d) :
    splitModule (firstToken (trimSpace (m ++ ':' :: leaf ++ " - ".toList ++ d))) =
        (m, leaf) ∧
      parseAllVariants name conflicts (m ++ ':' :: leaf ++ " - ".toList ++ d) =
        if hasPrefix leaf name = true ∧
            (∀ c ∈ conflicts.index name, hasPrefix leaf c = false) ∧
            trimPrefix leaf name ≠ []
        then [(m, [trimPrefix leaf name])] else [] := by
  have hcolon : ':' ∉ leaf := fun h => (hleaf _ h).2 rfl
  have htokns : ∀ c ∈ m ++ ':' :: leaf, isSpace c = false := by
    intro c hc
    rcases List.mem_append.1 hc with h | h
    · exact hm c h
    · rcases List.mem_cons.1 h with h | h
      · subst h; decide
      · exact (hleaf c h).1
  have hline : m ++ ':' :: leaf ++ " - ".toList ++ d =
      (m ++ ':' :: leaf) ++ ' ' :: ('-' :: ' ' :: d) := by
    simp
  have hnl : '\n' ∉ m ++ ':' :: leaf ++ " - ".toList ++ d := by
    rw [hline]
    intro h
    rcases List.mem_append.1 h with h | h
    · simpa [isSpace] using htokns _ h
    · simp only [List.mem_cons] at h
      rcases h with h | h | h | h
      · exact absurd h (by decide)
      · exact absurd h (by decide)
      · exact absurd h (by decide)
      · exact hd h
  obtain ⟨htok, hnonempty⟩ :=
    firstToken_trimSpace (m ++ ':' :: leaf) ('-' :: ' ' :: d) (by simp) htokns
  have hsm : splitModule (firstToken (trimSpace
      (m ++ ':' :: leaf ++ " - ".toList ++ d))) = (m, leaf) := by
    rw [hline, htok, splitModule_qualified m leaf hcolon]
  refine ⟨hsm, ?_⟩
  unfold parseAllVariants
  rw [split_no_sep _ _ hnl]
  simp only [parseLines, List.foldl_cons, List.foldl_nil]
  unfold parseLine
  simp only [hsm]
  rw [if_neg (by rw [hline]; exact hnonempty)]
  by_cases h1 : hasPrefix leaf name = true
  · by_cases h2 : (conflicts.index name).any (fun conflict => hasPrefix leaf conflict) = true
    · have h2n : ¬ ∀ c ∈ conflicts.index name, hasPrefix leaf c = false := by
        obtain ⟨c, hc, hp⟩ := List.any_eq_true.1 h2
        intro hall
        rw [hall c hc] at hp
        exact absurd hp (by decide)
      simp [h1, h2, h2n]
    · have h2a : ∀ c ∈ conflicts.index name, hasPrefix leaf c = false := by
        intro c hc
        by_contra hp
        exact h2 (List.any_eq_true.2 ⟨c, hc, by simpa using hp⟩)
      by_cases h3 : trimPrefix leaf name = []
      · simp [h1, h2, h3]
      · rw [if_pos h1, if_neg h2, if_neg h3, if_pos ⟨h1, h2a, h3⟩]
        simp [Variants.set, Variants.index, Variants.lookup, cleanStringSlice]
  · simp [h1]

/-- C2 (amended), on the line of the spec: `app:lintReleaseUnitTest - desc` is
rejected for family `test` and gives module `app` the variant
`ReleaseUnitTest` for family `lint`; the token `a:b:lintFoo` has module `a:b`. -/
theorem parseAllVariants_single_line_witness :
    (parseAllVariants "test".toList [] "app:lintReleaseUnitTest - desc".toList = [] ∧
      parseAllVariants "lint".toList [] "app:lintReleaseUnitTest - desc".toList =
        [("app".toList, ["ReleaseUnitTest".toList])]) ∧
    (splitModule (firstToken (trimSpace
        ("a:b".toList ++ ':' :: "lintFoo".toList ++ " - ".toList ++ "x".toList))) =
        ("a:b".toList, "lintFoo".toList) ∧
      parseAllVariants "lint".toList []
          ("a:b".toList ++ ':' :: "lintFoo".toList ++ " - ".toList ++ "x".toList) =
        if hasPrefix "lintFoo".toList "lint".toList = true ∧
            (∀ c ∈ Variants.index [] "lint".toList,
              hasPrefix "lintFoo".toList c = false) ∧
            trimPrefix "lintFoo".toList "lint".toList ≠ []
        then [("a:b".toList, [trimPrefix "lintFoo".toList "lint".toList])] else []) :=
  ⟨by decide,
    parseAllVariants_single_line "lint".toList [] "a:b".toList "lintFoo".toList
      "x".toList (by decide) (by decide) (by decide)⟩

/-- C3: the map returned by `parseAllVariants` has pairwise distinct module
names, it has an entry for exactly the modules that some line names a variant
for, and the list of every module has no duplicate, holds exactly the variants
that the listing names for the module, and orders them by their first
appearance in the listing. -/
theorem parseAllVariants_dedup_first_seen (name : GoString) (conflicts : Variants)
    (text : GoString) :
    (parseAllVariants name conflicts text).WF ∧
    (∀ m, (∃ vs, (m, vs) ∈ parseAllVariants name conflicts text) ↔
      listedVariants name conflicts text m ≠ []) ∧
    ∀ m vs, (m, vs) ∈ parseAllVariants name conflicts text →
      vs.Nodup ∧
      (∀ v, v ∈ vs ↔ v ∈ listedVariants name conflicts text m) ∧
      vs.Pairwise (fun u v =>
        firstIndex u (listedVariants name conflicts text m) <
          firstIndex v (listedVariants name conflicts text m)) := by
  obtain ⟨hwf, hne, hidx⟩ := foldl_parseLine_inv name conflicts (split '\n' text) []
    (by simp [Variants.WF]) (by simp)
  simp only [Variants.index_nil, List.nil_append] at hidx
  have hmem : ∀ m vs, (m, vs) ∈ parseAllVariants name conflicts text →
      vs = cleanStringSlice (listedVariants name conflicts text m) := by
    intro m vs h
    unfold parseAllVariants at h
    obtain ⟨⟨k, v0⟩, hkv, heq⟩ := List.mem_map.1 h
    simp only [Prod.mk.injEq] at heq
    obtain ⟨hk, hv⟩ := heq
    subst hk
    have hl := Variants.lookup_of_mem _ hwf k v0 hkv
    have hi := hidx k
    simp only [Variants.index, parseLines] at hl hi
    rw [hl] at hi
    simp only [Option.getD_some] at hi
    rw [← hv, hi]
    rfl
  refine ⟨?_, ?_, ?_⟩
  · unfold parseAllVariants Variants.WF
    rw [List.map_map]
    exact hwf
  · intro m
    constructor
    · rintro ⟨vs, h⟩
      unfold parseAllVariants at h
      obtain ⟨⟨k, v0⟩, hkv, heq⟩ := List.mem_map.1 h
      simp only [Prod.mk.injEq] at heq
      obtain ⟨hk, _⟩ := heq
      subst hk
      have hl := Variants.lookup_of_mem _ hwf k v0 hkv
      have hi := hidx k
      simp only [Variants.index] at hl hi
      rw [hl] at hi
      simp only [Option.getD_some] at hi
      unfold listedVariants
      rw [← hi]
      exact hne k v0 hkv
    · intro h
      have hi := hidx m
      unfold listedVariants at h
      rw [← hi] at h
      cases hl : (List.foldl (parseLine name conflicts) [] (split '\n' text)).lookup m with
      | none => simp [Variants.index, hl] at h
      | some v0 =>
        refine ⟨cleanStringSlice v0, ?_⟩
        unfold parseAllVariants parseLines
        exact List.mem_map.2 ⟨(m, v0), Variants.mem_of_lookup _ _ _ hl, rfl⟩
  · intro m vs h
    rw [hmem m vs h]
    exact ⟨cleanStringSlice_nodup _, mem_cleanStringSlice _,
      cleanStringSlice_first_seen _⟩

/-- C3, on a listing that names the task `testRelease` of module `app` twice,
around `testDebug`: the variant is listed once, in first-seen order. -/
theorem parseAllVariants_dedup_first_seen_witness :
    parseAllVariants "test".toList []
        "app:testRelease - a\napp:testDebug - b\napp:testRelease - c".toList =
      [("app".toList, ["Release".toList, "Debug".toList])] ∧
    ((parseAllVariants "test".toList []
        "app:testRelease - a\napp:testDebug - b\napp:testRelease - c".toList).WF ∧
    (∀ m, (∃ vs, (m, vs) ∈ parseAllVariants "test".toList []
        "app:testRelease - a\napp:testDebug - b\napp:testRelease - c".toList) ↔
      listedVariants "test".toList []
        "app:testRelease - a\napp:testDebug - b\napp:testRelease - c".toList m ≠ []) ∧
    ∀ m vs, (m, vs) ∈ parseAllVariants "test".toList []
        "app:testRelease - a\napp:testDebug - b\napp:testRelease - c".toList →
      vs.Nodup ∧
      (∀ v, v ∈ vs ↔ v ∈ listedVariants "test".toList []
        "app:testRelease - a\napp:testDebug - b\napp:testRelease - c".toList m) ∧
      vs.Pairwise (fun u v =>
        firstIndex u (listedVariants "test".toList []
          "app:testRelease - a\napp:testDebug - b\napp:testRelease - c".toList m) <
        firstIndex v (listedVariants "test".toList []
          "app:testRelease - a\napp:testDebug - b\napp:testRelease - c".toList m))) :=
  ⟨by decide, parseAllVariants_dedup_first_seen "test".toList []
    "app:testRelease - a\napp:testDebug - b\napp:testRelease - c".toList⟩

/-! ## Claims on filterVariants -/

/-- C4: with an empty module selector and a non-empty variant selector `V`, a
successful `filterVariants` returns a map with distinct keys that gives every
module of the input the variants of that module equal to `V + "UnitTest"`
ignoring letter case, in their original order, and that has no entry for a
module without such a variant (nor for a module absent from the input). -/
theorem filterVariants_by_variant (lower : Char → Char) (variant : GoString)
    (variantsMap result : Variants) (hwf : variantsMap.WF) (hv : variant ≠ [])
    (hok : filterVariants lower [] variant variantsMap = Except.ok result) :
    result.WF ∧
      ∀ m, result.lookup m =
        match variantsMap.lookup m with
        | none => none
        | some vs =>
          if vs.filter (fun v =>
              toLower lower v = toLower lower (variant ++ "UnitTest".toList)) = []
          then none
          else some (vs.filter (fun v =>
              toLower lower v = toLower lower (variant ++ "UnitTest".toList))) := by
  rw [filterVariants_all_modules lower variant variantsMap hv] at hok
  split_ifs at hok with h
  simp only [Except.ok.injEq] at hok
  obtain ⟨h1, h2⟩ := filterLoop_lookup lower variant variantsMap [] hwf
    (by simp [Variants.WF]) (by simp [Variants.lookup])
  rw [hok] at h1 h2
  refine ⟨h1, ?_⟩
  intro m
  rw [h2 m]
  cases variantsMap.lookup m with
  | none => simp [Variants.lookup]
  | some vs => rfl

/-- C4, on the example of the spec: the variant selector `release` keeps
`ReleaseUnitTest` of the root module. -/
theorem filterVariants_by_variant_witness :
    filterVariants Char.toLower [] "release".toList
        [([], ["DebugUnitTest".toList, "ReleaseUnitTest".toList])] =
      Except.ok [([], ["ReleaseUnitTest".toList])] ∧
    (Variants.WF [([], ["ReleaseUnitTest".toList])] ∧
      ∀ m, Variants.lookup [([], ["ReleaseUnitTest".toList])] m =
        match Variants.lookup
          [([], ["DebugUnitTest".toList, "ReleaseUnitTest".toList])] m with
        | none => none
        | some vs =>
          if vs.filter (fun v => toLower Char.toLower v =
              toLower Char.toLower ("release".toList ++ "UnitTest".toList)) = []
          then none
          else some (vs.filter (fun v => toLower Char.toLower v =
              toLower Char.toLower ("release".toList ++ "UnitTest".toList)))) :=
  ⟨by decide,
    filterVariants_by_variant Char.toLower "release".toList
      [([], ["DebugUnitTest".toList, "ReleaseUnitTest".toList])]
      [([], ["ReleaseUnitTest".toList])] (by decide) (by decide) (by decide)⟩

/-- C5: `filterVariants` fails exactly when the module selector is non-empty
and is not a key of the map, or the variant selector is non-empty and no variant
of the selected module (of any module, for an empty module selector) matches
it. In the first case the error is "module not found", whatever the variant
selector; otherwise it is "variant not found in any module". With an empty
variant selector and a module selector that is empty or a key, the call
succeeds. -/
theorem filterVariants_error_iff (lower : Char → Char) (module variant : GoString)
    (variantsMap : Variants) (hwf : variantsMap.WF) :
    ((∃ e, filterVariants lower module variant variantsMap = Except.error e) ↔
      (module ≠ [] ∧ variantsMap.lookup module = none) ∨
      (variant ≠ [] ∧ ∀ m vs, (module = [] ∨ m = module) →
        variantsMap.lookup m = some vs →
        ∀ v ∈ vs, toLower lower v ≠ toLower lower (variant ++ "UnitTest".toList))) ∧
    (module ≠ [] → variantsMap.lookup module = none →
      filterVariants lower module variant variantsMap =
        Except.error (FilterError.moduleNotFound module)) ∧
    (¬ (module ≠ [] ∧ variantsMap.lookup module = none) →
      ∀ e, filterVariants lower module variant variantsMap = Except.error e →
        e = FilterError.variantNotFound variant) ∧
    (variant = [] → (module = [] ∨ variantsMap.lookup module ≠ none) →
      ∃ r, filterVariants lower module variant variantsMap = Except.ok r) := by
  have hfilter : ∀ vs : List GoString,
      vs.filter (matchesVariant lower variant) = [] ↔
        ∀ v ∈ vs, toLower lower v ≠ toLower lower (variant ++ "UnitTest".toList) := by
    intro vs
    simp [List.filter_eq_nil_iff, matchesVariant]
  by_cases hm : module = []
  · subst hm
    by_cases hv : variant = []
    · subst hv
      simp [filterVariants]
    · rw [filterVariants_all_modules lower variant variantsMap hv]
      have hnil := filterLoop_eq_nil_iff lower variant variantsMap []
      by_cases hall : ∀ m vs, (m, vs) ∈ variantsMap →
          vs.filter (matchesVariant lower variant) = []
      · rw [if_pos (hnil.2 ⟨rfl, hall⟩)]
        refine ⟨?_, by simp, by simp, fun h => absurd h hv⟩
        simp only [ne_eq, not_true_eq_false, false_and, false_or, true_or, true_implies]
        refine ⟨fun _ => ⟨hv, ?_⟩, fun _ => ⟨_, rfl⟩⟩
        intro m vs hl
        exact (hfilter vs).1 (hall m vs (Variants.mem_of_lookup _ _ _ hl))
      · rw [if_neg (fun h => hall (hnil.1 h).2)]
        refine ⟨?_, by simp, by simp, fun h => absurd h hv⟩
        simp only [ne_eq, not_true_eq_false, false_and, false_or, true_or, true_implies,
          reduceCtorEq, exists_false, false_iff, not_and]
        intro _ hno
        apply hall
        intro m vs hmem
        exact (hfilter vs).2 (hno m vs (Variants.lookup_of_mem _ hwf m vs hmem))
  · cases hl : variantsMap.lookup module with
    | none =>
      have hres : filterVariants lower module variant variantsMap =
          Except.error (FilterError.moduleNotFound module) := by
        simp [filterVariants, hm, hl]
      rw [hres]
      refine ⟨?_, fun _ _ => rfl, ?_, ?_⟩
      · simp [hm]
      · intro h
        exact absurd ⟨hm, rfl⟩ h
      · intro _ h
        rcases h with h | h
        · exact absurd h hm
        · exact absurd rfl h
    | some ws =>
      by_cases hv : variant = []
      · subst hv
        have hres : filterVariants lower module [] variantsMap =
            Except.ok [(module, ws)] := by
          simp [filterVariants, hm, hl]
        rw [hres]
        simp
      · have hres : filterVariants lower module variant variantsMap =
            if ws.filter (matchesVariant lower variant) = [] then
              Except.error (FilterError.variantNotFound variant)
            else Except.ok [(module, ws.filter (matchesVariant lower variant))] := by
          simp only [filterVariants, hm, hl, ne_eq, not_false_eq_true, if_true, hv,
            if_false, List.foldl_cons, List.foldl_nil, filterModule_eq,
            List.length_eq_zero]
          by_cases hf : ws.filter (matchesVariant lower variant) = []
          · simp [hf]
          · simp [hf, Variants.set, Variants.index, Variants.lookup]
        rw [hres]
        by_cases hf : ws.filter (matchesVariant lower variant) = []
        · rw [if_pos hf]
          refine ⟨?_, by simp, by simp, fun h => absurd h hv⟩
          refine ⟨fun _ => Or.inr ⟨hv, ?_⟩, fun _ => ⟨_, rfl⟩⟩
          intro m vs hsel hlm
          have hmm : m = module := by
            rcases hsel with h | h
            · exact absurd h hm
            · exact h
          subst hmm
          rw [hl] at hlm
          cases hlm
          exact (hfilter ws).1 hf
        · rw [if_neg hf]
          refine ⟨?_, by simp, by simp, fun h => absurd h hv⟩
          simp only [reduceCtorEq, exists_false, false_iff, not_or, not_and]
          refine ⟨fun _ => by simp, fun _ hno => ?_⟩
          exact hf ((hfilter ws).2 (hno module ws (Or.inr rfl) hl))

/-- C5, on the root module with two variants: the module selector `app` is not
found, also with a variant selector that matches nothing; the variant selector
`beta` is not found; and the empty selectors succeed on the empty map. -/
theorem filterVariants_error_iff_witness :
    filterVariants Char.toLower "app".toList "beta".toList
        [([], ["DebugUnitTest".toList, "ReleaseUnitTest".toList])] =
      Except.error (FilterError.moduleNotFound "app".toList) ∧
    filterVariants Char.toLower [] "beta".toList
        [([], ["DebugUnitTest".toList, "ReleaseUnitTest".toList])] =
      Except.error (FilterError.variantNotFound "beta".toList) ∧
    filterVariants Char.toLower [] [] [] = Except.ok [] ∧
    ((∃ e, filterVariants Char.toLower "app".toList "beta".toList
        [([], ["DebugUnitTest".toList, "ReleaseUnitTest".toList])] = Except.error e) ↔
      ("app".toList ≠ [] ∧ Variants.lookup
        [([], ["DebugUnitTest".toList, "ReleaseUnitTest".toList])] "app".toList = none) ∨
      ("beta".toList ≠ [] ∧ ∀ m vs, ("app".toList = [] ∨ m = "app".toList) →
        Variants.lookup [([], ["DebugUnitTest".toList, "ReleaseUnitTest".toList])] m =
          some vs →
        ∀ v ∈ vs, toLower Char.toLower v ≠
          toLower Char.toLower ("beta".toList ++ "UnitTest".toList))) :=
  ⟨by decide, by decide, by decide,
    (filterVariants_error_iff Char.toLower "app".toList "beta".toList
      [([], ["DebugUnitTest".toList, "ReleaseUnitTest".toList])] (by decide)).1⟩

/-- C6: for non-empty selectors `M` and `V`, filtering by module `M` alone and
then filtering the result by variant `V` alone has the outcome of the joint
call `filterVariants(M, V, map)`: the same map when it succeeds and the same
error when it fails. -/
theorem filterVariants_module_then_variant (lower : Char → Char)
    (module variant : GoString) (variantsMap : Variants)
    (hm : module ≠ []) (hv : variant ≠ []) :
    (match filterVariants lower module [] variantsMap with
      | Except.error e => Except.error e
      | Except.ok byModule => filterVariants lower [] variant byModule) =
      filterVariants lower module variant variantsMap := by
  cases hl : variantsMap.lookup module with
  | none => simp [filterVariants, hm, hl]
  | some ws => simp [filterVariants, hm, hv, hl]

/-- C6, on a map of two modules with the selectors `app` and `release`. -/
theorem filterVariants_module_then_variant_witness :
    (match filterVariants Char.toLower "app".toList []
        [([], ["DebugUnitTest".toList]),
          ("app".toList, ["DebugUnitTest".toList, "ReleaseUnitTest".toList])] with
      | Except.error e => Except.error e
      | Except.ok byModule => filterVariants Char.toLower [] "release".toList byModule) =
      filterVariants Char.toLower "app".toList "release".toList
        [([], ["DebugUnitTest".toList]),
          ("app".toList, ["DebugUnitTest".toList, "ReleaseUnitTest".toList])] ∧
    filterVariants Char.toLower "app".toList "release".toList
        [([], ["DebugUnitTest".toList]),
          ("app".toList, ["DebugUnitTest".toList, "ReleaseUnitTest".toList])] =
      Except.ok [("app".toList, ["ReleaseUnitTest".toList])] :=
  ⟨filterVariants_module_then_variant Char.toLower "app".toList "release".toList
      [([], ["DebugUnitTest".toList]),
        ("app".toList, ["DebugUnitTest".toList, "ReleaseUnitTest".toList])]
      (by decide) (by decide),
    by decide⟩

/-! ## Claims on the artifact functions -/

/-- C7, evaluated: the search from the threshold `100` succeeds with the
non-empty list `[new]`, and `getArtifacts` does not return that list: it
searches again without a threshold and returns `[new, stale]`. -/
theorem getArtifacts_overwrites_thresholded_result :
    staleProject.FindDirs 100 "*reports".toList true =
      ([⟨"build/new".toList, "new".toList⟩], none) ∧
    getArtifacts staleProject 100 "*reports".toList true true =
      ([⟨"build/new".toList, "new".toList⟩, ⟨"build/stale".toList, "stale".toList⟩],
        none) ∧
    getArtifacts staleProject 100 "*reports".toList true true ≠
      staleProject.FindDirs 100 "*reports".toList true := by
  decide

/-- C8, as stated, fails: when the existence check of the target name fails,
`exportArtifacts` returns an error and calls `ExportZIP` on no artifact, neither
on the first of the two nor on the one after it. -/
theorem exportArtifacts_never_fails_counterexample :
    (exportArtifacts failingCheckEnv "deploy".toList
        [⟨"build/a".toList, "a".toList⟩, ⟨"build/b".toList, "b".toList⟩] ()).err =
      some "failed to check path, error: permission denied".toList ∧
    (exportArtifacts failingCheckEnv "deploy".toList
        [⟨"build/a".toList, "a".toList⟩, ⟨"build/b".toList, "b".toList⟩] ()).exported =
      [] := by
  decide

/-- C8 (amended): `exportArtifacts` calls `ExportZIP` on a leading part of the
list, in order, and nothing else changes the state, whatever the outcome of
each `ExportZIP` is; every artifact it attempts has passed the existence check
of its target name at the state the check was made in. If the check of the
artifact after the attempted ones does not fail, there is no such artifact:
no error is returned and every artifact of the list was attempted. Otherwise
that check failed, and `exportArtifacts` returned the error
`failed to check path` at once, at the state of that check, attempting neither
that artifact nor those after it. -/
theorem exportArtifacts_best_effort {W : Type} (env : ExportEnv W)
    (deployDir : GoString) (artifacts : List Artifact) (w : W) (r : ExportResult W)
    (hr : exportArtifacts env deployDir artifacts w = r) :
    r.world = zipAll env deployDir r.exported w ∧
    r.exported.map Artifact.Path <+: artifacts.map Artifact.Path ∧
    (∀ (i : Nat) (a : Artifact), i < r.exported.length → artifacts[i]? = some a →
      (targetCheck env deployDir a
        (zipAll env deployDir (r.exported.take i) w)).2 = none) ∧
    ((∀ a : Artifact, artifacts[r.exported.length]? = some a →
        (targetCheck env deployDir a r.world).2 = none) →
      r.err = none ∧ r.exported.map Artifact.Path = artifacts.map Artifact.Path) ∧
    (∀ a : Artifact, artifacts[r.exported.length]? = some a →
      ∃ e, (targetCheck env deployDir a r.world).2 = some e ∧
        r.err = some ("failed to check path, error: ".toList ++ e)) ∧
    (r.err = none ↔ r.exported.map Artifact.Path = artifacts.map Artifact.Path) := by
  subst hr
  obtain ⟨hA, hB, hC, hD1, hD2⟩ := exportArtifacts_trace env deployDir artifacts w
  have hfull : (exportArtifacts env deployDir artifacts w).exported.length =
      artifacts.length →
      (exportArtifacts env deployDir artifacts w).exported.map Artifact.Path =
        artifacts.map Artifact.Path := by
    intro hlen
    exact List.IsPrefix.eq_of_length hB (by simp [hlen])
  refine ⟨hA, hB, ?_, ?_, hD2, ?_⟩
  · intro i a hi ha
    obtain ⟨x, hx⟩ : ∃ x, (exportArtifacts env deployDir artifacts w).exported[i]? =
        some x := ⟨_, List.getElem?_eq_getElem hi⟩
    exact (hC i a x ha hx).1
  · intro hno
    have hlen : (exportArtifacts env deployDir artifacts w).exported.length =
        artifacts.length := by
      cases hnext : artifacts[(exportArtifacts env deployDir artifacts w).exported.length]? with
      | some a =>
        obtain ⟨e, he, _⟩ := hD2 a hnext
        rw [hno a hnext] at he
        exact absurd he (by simp)
      | none =>
        have h1 := List.getElem?_eq_none_iff.1 hnext
        have h2 := hB.length_le
        simp only [List.length_map] at h2
        omega
    exact ⟨hD1.2 hlen, hfull hlen⟩
  · constructor
    · intro h
      exact hfull (hD1.1 h)
    · intro h
      apply hD1.2
      have := congrArg List.length h
      simpa using this

/-- C8 (amended), on three runs. With every `ExportZIP` failing, both artifacts
are attempted and no error is returned. With the existence check failing on
`deploy/locked.zip`, the run over `a`, `locked`, `c` attempts `a` only and
returns the error, while the run over `a`, `c`, which never checks that path,
attempts both and returns no error. -/
theorem exportArtifacts_best_effort_witness :
    (exportArtifacts failingZipEnv "deploy".toList
        [⟨"build/a".toList, "a".toList⟩, ⟨"build/b".toList, "b".toList⟩] []).err = none ∧
    (exportArtifacts failingZipEnv "deploy".toList
        [⟨"build/a".toList, "a".toList⟩, ⟨"build/b".toList, "b".toList⟩] []).exported =
      [⟨"build/a".toList, "a.zip".toList⟩, ⟨"build/b".toList, "b.zip".toList⟩] ∧
    (exportArtifacts recordingEnv "deploy".toList
        [⟨"build/a".toList, "a".toList⟩, ⟨"build/locked".toList, "locked".toList⟩,
          ⟨"build/c".toList, "c".toList⟩] []).exported =
      [⟨"build/a".toList, "a.zip".toList⟩] ∧
    (exportArtifacts recordingEnv "deploy".toList
        [⟨"build/a".toList, "a".toList⟩, ⟨"build/locked".toList, "locked".toList⟩,
          ⟨"build/c".toList, "c".toList⟩] []).err =
      some "failed to check path, error: permission denied".toList ∧
    ((exportArtifacts recordingEnv "deploy".toList
        [⟨"build/a".toList, "a".toList⟩, ⟨"build/c".toList, "c".toList⟩] []).err = none ∧
      (exportArtifacts recordingEnv "deploy".toList
          [⟨"build/a".toList, "a".toList⟩, ⟨"build/c".toList, "c".toList⟩]
          []).exported.map Artifact.Path =
        [(⟨"build/a".toList, "a".toList⟩ : Artifact),
          ⟨"build/c".toList, "c".toList⟩].map Artifact.Path) :=
  ⟨by decide, by decide, by decide, by decide,
    (exportArtifacts_best_effort recordingEnv "deploy".toList
      [⟨"build/a".toList, "a".toList⟩, ⟨"build/c".toList, "c".toList⟩] [] _ rfl).2.2.2.1
      (by
        intro a h
        have hnone : ([⟨"build/a".toList, "a".toList⟩,
            ⟨"build/c".toList, "c".toList⟩] : List Artifact)[(exportArtifacts recordingEnv
              "deploy".toList [⟨"build/a".toList, "a".toList⟩,
                ⟨"build/c".toList, "c".toList⟩] []).exported.length]? = none := by
          decide
        rw [hnone] at h
        exact absurd h (by simp))⟩

theorem itoa_natCast (k : Nat) : itoa (k : Int) = itoaNat k := by
  simp [itoa]

theorem countOther_cons (g : GoString → GoString) (p : GoString)
    (rest : List GoString) :
    countOther g (p :: rest) =
      (if g p = OtherDirName then 1 else 0) + countOther g rest := by
  unfold countOther
  by_cases h : g p = OtherDirName
  · simp [h]; omega
  · simp [h]

theorem countOther_take_lt (g : GoString → GoString) (paths : List GoString)
    (i j : Nat) (p : GoString) (hij : i < j) (hp : paths[i]? = some p)
    (hother : g p = OtherDirName) :
    countOther g (paths.take i) < countOther g (paths.take j) := by
  have h1 : paths.take (i + 1) = paths.take i ++ [p] := by
    rw [List.take_succ, hp]
    rfl
  have h2 : countOther g (paths.take (i + 1)) = countOther g (paths.take i) + 1 := by
    rw [h1]
    simp [countOther, hother]
  have h3 : countOther g (paths.take (i + 1)) ≤ countOther g (paths.take j) := by
    unfold countOther
    exact ((List.take_sublist_take_left paths (Nat.succ_le_of_lt hij)).filter _).length_le
  omega

theorem exportTestAddonLoop_getElem (g : GoString → GoString) (out : GoString)
    (paths : List GoString) (idx : Int) (i : Nat) (p : GoString)
    (hp : paths[i]? = some p) :
    (exportTestAddonLoop g out paths idx)[i]? =
      some ⟨p, out,
        if g p = OtherDirName then
          if idx + 1 + (countOther g (paths.take i) : Int) > 0 then
            OtherDirName ++ "-".toList ++ itoa (idx + 1 + (countOther g (paths.take i) : Int))
          else OtherDirName
        else g p⟩ := by
  induction paths generalizing idx i with
  | nil => simp at hp
  | cons q rest ih =>
    cases i with
    | zero =>
      simp only [List.getElem?_cons_zero, Option.some.injEq] at hp
      subst hp
      simp only [exportTestAddonLoop, tryExportTestAddonArtifact, List.getElem?_cons_zero,
        List.take_zero, countOther, List.filter_nil, List.length_nil, Nat.cast_zero,
        add_zero]
      by_cases hq : g q = OtherDirName
      · by_cases hpos : idx + 1 > 0
        · simp [hq, hpos]
        · simp [hq, hpos]
      · simp [hq]
    | succ n =>
      simp only [List.getElem?_cons_succ] at hp
      simp only [exportTestAddonLoop, List.getElem?_cons_succ, List.take_succ_cons]
      rw [ih _ n hp, countOther_cons]
      by_cases hq : g q = OtherDirName
      · have hidx : (tryExportTestAddonArtifact g q out idx).2 = idx + 1 := by
          simp only [tryExportTestAddonArtifact, hq, if_true]
          split_ifs <;> rfl
        rw [hidx]
        simp only [hq, if_true, Nat.cast_add, Nat.cast_one]
        have e : idx + 1 + 1 + (countOther g (List.take n rest) : Int) =
            idx + 1 + (1 + (countOther g (List.take n rest) : Int)) := by ring
        rw [e]
      · have hidx : (tryExportTestAddonArtifact g q out idx).2 = idx := by
          simp [tryExportTestAddonArtifact, hq]
        rw [hidx]
        simp [hq]

theorem exportTestAddonLoop_length (g : GoString → GoString) (out : GoString)
    (paths : List GoString) (idx : Int) :
    (exportTestAddonLoop g out paths idx).length = paths.length := by
  induction paths generalizing idx with
  | nil => rfl
  | cons q rest ih => simp [exportTestAddonLoop, ih]

theorem otherDir_ne (a b : Nat) (hab : a < b) :
    (if a = 0 then OtherDirName else OtherDirName ++ "-".toList ++ itoa (a : Int)) ≠
      (if b = 0 then OtherDirName else OtherDirName ++ "-".toList ++ itoa (b : Int)) := by
  have hb : b ≠ 0 := by omega
  rw [if_neg hb]
  by_cases ha : a = 0
  · rw [if_pos ha]
    intro h
    have := congrArg List.length h
    simp only [List.length_append] at this
    have h1 : ("-".toList : GoString).length = 1 := rfl
    omega
  · rw [if_neg ha]
    intro h
    have h2 := List.append_cancel_left h
    rw [itoa_natCast, itoa_natCast] at h2
    have := itoaNat_injective a b h2
    omega

/-- C9: in the test-addon export of `main`, which starts from index `-1`, the
artifact at position `i` of the list is exported to its own category directory
when that is not the special category, and otherwise, with `k` the number of
artifacts of the special category before it, to `other` when `k = 0` and to
`other-k` when `k ≥ 1`; two artifacts of the special category never share a
subdirectory; and on an artifact of another category
`tryExportTestAddonArtifact` returns the index it was given. -/
theorem exportTestAddonResults_other_dirs (getExportDir : GoString → GoString)
    (outputDir : GoString) (paths : List GoString) :
    (exportTestAddonResults getExportDir outputDir paths).length = paths.length ∧
    (∀ (i : Nat) (p : GoString), paths[i]? = some p →
      (exportTestAddonResults getExportDir outputDir paths)[i]? =
        some (TestAddonExport.mk p outputDir
          (if getExportDir p = OtherDirName then
            if countOther getExportDir (paths.take i) = 0 then "other".toList
            else "other".toList ++ "-".toList ++
              itoa (countOther getExportDir (paths.take i) : Int)
          else getExportDir p))) ∧
    (∀ (i j : Nat) (ci cj : TestAddonExport), i < j →
      (exportTestAddonResults getExportDir outputDir paths)[i]? = some ci →
      (exportTestAddonResults getExportDir outputDir paths)[j]? = some cj →
      getExportDir ci.artifactPth = OtherDirName →
      getExportDir cj.artifactPth = OtherDirName → ci.dir ≠ cj.dir) ∧
    (∀ pth idx, getExportDir pth ≠ OtherDirName →
      tryExportTestAddonArtifact getExportDir pth outputDir idx =
        (⟨pth, outputDir, getExportDir pth⟩, idx)) := by
  have hlen := exportTestAddonLoop_length getExportDir outputDir paths (-1)
  have hget : ∀ (i : Nat) (p : GoString), paths[i]? = some p →
      (exportTestAddonResults getExportDir outputDir paths)[i]? =
        some (TestAddonExport.mk p outputDir
          (if getExportDir p = OtherDirName then
            if countOther getExportDir (paths.take i) = 0 then OtherDirName
            else OtherDirName ++ "-".toList ++
              itoa (countOther getExportDir (paths.take i) : Int)
          else getExportDir p)) := by
    intro i p hp
    unfold exportTestAddonResults
    rw [exportTestAddonLoop_getElem getExportDir outputDir paths (-1) i p hp]
    have e : (-1 : Int) + 1 + (countOther getExportDir (paths.take i) : Int) =
        (countOther getExportDir (paths.take i) : Int) := by ring
    rw [e]
    by_cases hk : countOther getExportDir (paths.take i) = 0
    · simp [hk]
    · have hpos : (countOther getExportDir (paths.take i) : Int) > 0 := by
        have : 0 < countOther getExportDir (paths.take i) := Nat.pos_of_ne_zero hk
        exact_mod_cast this
      simp [hk, hpos]
  refine ⟨hlen, hget, ?_, ?_⟩
  · intro i j ci cj hij hci hcj hoi hoj
    have hj : j < paths.length := by
      rw [← hlen]
      exact (List.getElem?_eq_some_iff.1 hcj).1
    have hi : i < paths.length := by omega
    have hpi : paths[i]? = some paths[i] := List.getElem?_eq_getElem hi
    have hpj : paths[j]? = some paths[j] := List.getElem?_eq_getElem hj
    rw [hget i _ hpi] at hci
    rw [hget j _ hpj] at hcj
    simp only [Option.some.injEq] at hci hcj
    subst hci
    subst hcj
    simp only at hoi hoj ⊢
    rw [if_pos hoi, if_pos hoj]
    exact otherDir_ne _ _ (countOther_take_lt getExportDir paths i j _ hij hpi hoi)
  · intro pth idx h
    simp [tryExportTestAddonArtifact, h]

/-- C9, on four artifacts of which the first, the third and the fourth are of
the special category: they go to `other`, `other-1` and `other-2`. -/
theorem exportTestAddonResults_other_dirs_witness :
    (exportTestAddonResults sampleExportDir "results".toList
        ["a".toList, "bb".toList, "c".toList, "d".toList]).map TestAddonExport.dir =
      ["other".toList, "bb".toList, "other-1".toList, "other-2".toList] ∧
    (exportTestAddonResults sampleExportDir "results".toList
        ["a".toList, "bb".toList, "c".toList, "d".toList]).length =
      ["a".toList, "bb".toList, "c".toList, "d".toList].length :=
  ⟨by decide,
    (exportTestAddonResults_other_dirs sampleExportDir "results".toList
      ["a".toList, "bb".toList, "c".toList, "d".toList]).1⟩

end AndroidUnitTest
